import Mathlib

/-!
# Verification of the afvoices audio-curation scripts

Shallow embedding of the pure cores of the repository's scripts
(`save_short_and_timestamps.py`, `seg-and-transcribe.py`, `calculate_snr.py`,
`download_from_gcs.py`, `calculate-duration.py`) together with theorems
settling the specification's claims about them.

Numeric convention: Python floats are modelled by `ℚ`; `int(x)` on a
non-negative value is `Int.floor` followed by `Int.toNat`.
-/

namespace AfVoices

/-! ## Segment splitter

`save_short_and_timestamps.py`, `process_one_audio`, lines 136-146: an
interval `(start_orig, end_orig)` at sample rate `orig_sr` is split when its
duration exceeds `max_duration`:

    seg_sec = (end_orig - start_orig) / orig_sr
    if seg_sec > max_duration:
        num_subsegs = int(seg_sec // max_duration) + 1
        for j in range(num_subsegs):
            s = start_orig + int(j * max_duration * orig_sr)
            e = min(start_orig + int((j + 1) * max_duration * orig_sr), end_orig)
            splits.append((s, e))
    else:
        splits = [(start_orig, end_orig)]
-/

def process_one_audio_splits (start_orig end_orig orig_sr : ℕ) (max_duration : ℚ) :
    List (ℕ × ℕ) :=
  let seg_sec : ℚ := ((end_orig : ℚ) - (start_orig : ℚ)) / (orig_sr : ℚ)
  if seg_sec > max_duration then
    let num_subsegs : ℕ := (⌊seg_sec / max_duration⌋).toNat + 1
    (List.range num_subsegs).map (fun (j : ℕ) =>
      (start_orig + (⌊(j : ℚ) * max_duration * (orig_sr : ℚ)⌋).toNat,
       min (start_orig + (⌊((j : ℚ) + 1) * max_duration * (orig_sr : ℚ)⌋).toNat) end_orig))
  else [(start_orig, end_orig)]

/-- `seg-and-transcribe.py`, `segment_audio_with_vad`, lines 84-94: same split
loop, but a sub-range is appended only if `(e-s)/orig_sr >= min_duration`, and
an unsplit interval is kept only if `seg_sec >= min_duration`. -/
def segment_audio_with_vad_splits (start_orig end_orig orig_sr : ℕ)
    (min_duration max_duration : ℚ) : List (ℕ × ℕ) :=
  let seg_sec : ℚ := ((end_orig : ℚ) - (start_orig : ℚ)) / (orig_sr : ℚ)
  if seg_sec > max_duration then
    ((List.range ((⌊seg_sec / max_duration⌋).toNat + 1)).map (fun (j : ℕ) =>
      (start_orig + (⌊(j : ℚ) * max_duration * (orig_sr : ℚ)⌋).toNat,
       min (start_orig + (⌊((j : ℚ) + 1) * max_duration * (orig_sr : ℚ)⌋).toNat) end_orig))).filter
      (fun p => ((p.2 : ℚ) - (p.1 : ℚ)) / (orig_sr : ℚ) ≥ min_duration)
  else if seg_sec ≥ min_duration then [(start_orig, end_orig)] else []

/-- All segments produced for an interval list, in interval order
(the `for i, ts in enumerate(speech_timestamps)` loop of `process_one_audio`). -/
def process_one_audio_allSplits (intervals : List (ℕ × ℕ)) (orig_sr : ℕ)
    (max_duration : ℚ) : List (ℕ × ℕ) :=
  intervals.flatMap (fun p => process_one_audio_splits p.1 p.2 orig_sr max_duration)

/-- All segments produced for an interval list by `segment_audio_with_vad`. -/
def segment_audio_with_vad_allSplits (intervals : List (ℕ × ℕ)) (orig_sr : ℕ)
    (min_duration max_duration : ℚ) : List (ℕ × ℕ) :=
  intervals.flatMap
    (fun p => segment_audio_with_vad_splits p.1 p.2 orig_sr min_duration max_duration)

/-! ## SNR categorization (`calculate_snr.py`, `categorize_snr`, lines 49-54) -/

def categorize_snr (snr_db : ℚ) : String :=
  if snr_db < 0 then "Very low SNR"
  else if snr_db < 5 then "Low SNR"
  else if snr_db < 15 then "Medium SNR"
  else if snr_db < 25 then "High SNR"
  else "Very high SNR"

/-! ### Helper lemmas about `List.getD` over a mapped range -/

theorem getD_range_map {α : Type*} (f : ℕ → α) (n i : ℕ) (d : α) (hi : i < n) :
    (((List.range n).map f).getD i d) = f i := by
  rw [List.getD_eq_getElem?_getD, List.getElem?_map, List.getElem?_range hi]
  rfl

/-! ### The splitter under an integral `max_duration * orig_sr`

When `max_duration * orig_sr` is a whole number of samples `m`, the split of an
over-long interval takes an explicit closed form. -/

theorem process_one_audio_splits_eq_of_mul (start fin sr m : ℕ) (maxd : ℚ)
    (hsr : 0 < sr) (hm : maxd * (sr : ℚ) = (m : ℚ)) (hmpos : 0 < m)
    (hlong : start + m < fin) :
    process_one_audio_splits start fin sr maxd =
      (List.range ((fin - start) / m + 1)).map
        (fun j => (start + j * m, min (start + (j + 1) * m) fin)) := by
  have hsrq : (0 : ℚ) < (sr : ℚ) := by exact_mod_cast hsr
  have hstart : start ≤ fin := by omega
  have hcast : (fin : ℚ) - (start : ℚ) = ((fin - start : ℕ) : ℚ) := by
    rw [Nat.cast_sub hstart]
  have hNm : m < fin - start := by omega
  have hcond : ((fin : ℚ) - (start : ℚ)) / (sr : ℚ) > maxd := by
    rw [hcast, gt_iff_lt, lt_div_iff₀ hsrq, hm]
    exact_mod_cast hNm
  have hfloor1 : ∀ j : ℕ, (⌊(j : ℚ) * maxd * (sr : ℚ)⌋).toNat = j * m := by
    intro j
    have h1 : (j : ℚ) * maxd * (sr : ℚ) = ((j * m : ℕ) : ℚ) := by
      rw [mul_assoc, hm]; push_cast; ring
    rw [h1, Int.floor_natCast, Int.toNat_natCast]
  have hmq : (0 : ℚ) < (m : ℚ) := by exact_mod_cast hmpos
  have hmaxd : maxd = (m : ℚ) / (sr : ℚ) := by
    field_simp [hsrq.ne'] at hm ⊢; linarith [hm]
  have hnum : (⌊((fin : ℚ) - (start : ℚ)) / (sr : ℚ) / maxd⌋).toNat = (fin - start) / m := by
    have h2 : ((fin : ℚ) - (start : ℚ)) / (sr : ℚ) / maxd =
        ((fin - start : ℕ) : ℚ) / ((m : ℕ) : ℚ) := by
      rw [hcast, hmaxd]
      field_simp
    rw [h2, Rat.floor_natCast_div_natCast, ← Int.natCast_div, Int.toNat_natCast]
  unfold process_one_audio_splits
  rw [if_pos hcond, hnum]
  refine List.map_congr_left fun j _ => ?_
  have hj1 : ((j : ℚ) + 1) * maxd * (sr : ℚ) = ((j + 1 : ℕ) : ℚ) * maxd * (sr : ℚ) := by
    push_cast; ring
  rw [hfloor1 j, hj1, hfloor1 (j + 1)]

/-- Claim C1, amended: for an interval whose duration exceeds `max_duration`,
when `max_duration * orig_sr` is a whole number of samples `m` and the
interval's sample length is not an exact multiple of `m`, the
`process_one_audio` splitter partitions it into exactly
`ceil(duration / max_duration)` contiguous sub-ranges: each is at most
`max_duration` long, all but the last are exactly `m` samples long, the
first starts at the interval start, each sub-range ends where the next
begins, and the last ends at the interval end (no gaps, no overlaps).  The
`segment_audio_with_vad` splitter produces the same sub-ranges but keeps only
those of duration ≥ `min_duration`. -/
theorem process_one_audio_splits_partition
    (start fin sr m : ℕ) (maxd mind : ℚ) (L : List (ℕ × ℕ))
    (hsr : 0 < sr) (hm : maxd * (sr : ℚ) = (m : ℚ)) (hmpos : 0 < m)
    (hlong : start + m < fin) (hnd : ¬ m ∣ (fin - start))
    (hL : L = process_one_audio_splits start fin sr maxd) :
    ((L.length : ℤ) = ⌈((fin : ℚ) - (start : ℚ)) / (sr : ℚ) / maxd⌉)
    ∧ (∀ p ∈ L, p.1 ≤ p.2 ∧ ((p.2 : ℚ) - (p.1 : ℚ)) / (sr : ℚ) ≤ maxd)
    ∧ (∀ i, i + 1 < L.length → (L.getD i (0, 0)).2 - (L.getD i (0, 0)).1 = m)
    ∧ (∀ i, i + 1 < L.length → (L.getD i (0, 0)).2 = (L.getD (i + 1) (0, 0)).1)
    ∧ ((L.getD 0 (0, 0)).1 = start ∧ (L.getD (L.length - 1) (0, 0)).2 = fin)
    ∧ segment_audio_with_vad_splits start fin sr mind maxd
        = L.filter (fun p => ((p.2 : ℚ) - (p.1 : ℚ)) / (sr : ℚ) ≥ mind) := by
  have hsrq : (0 : ℚ) < (sr : ℚ) := by exact_mod_cast hsr
  have hmq : (0 : ℚ) < (m : ℚ) := by exact_mod_cast hmpos
  have hstart : start ≤ fin := by omega
  have hcast : (fin : ℚ) - (start : ℚ) = ((fin - start : ℕ) : ℚ) := by
    rw [Nat.cast_sub hstart]
  have hmaxd : maxd = (m : ℚ) / (sr : ℚ) := by
    field_simp [hsrq.ne'] at hm ⊢; linarith [hm]
  have hexp := process_one_audio_splits_eq_of_mul start fin sr m maxd hsr hm hmpos hlong
  rw [hexp] at hL
  have hmodlt : (fin - start) % m < m := Nat.mod_lt _ hmpos
  have hdm : fin - start = (fin - start) / m * m + (fin - start) % m :=
    (Nat.div_add_mod' _ _).symm
  have hmodpos : 0 < (fin - start) % m :=
    Nat.pos_of_ne_zero (fun h => hnd (Nat.dvd_of_mod_eq_zero h))
  have hlen : L.length = (fin - start) / m + 1 := by rw [hL]; simp
  have hget : ∀ i, i < (fin - start) / m + 1 →
      L.getD i (0, 0) = (start + i * m, min (start + (i + 1) * m) fin) := by
    intro i hi
    rw [hL]; exact getD_range_map _ _ _ _ hi
  have hmul : ∀ i j : ℕ, i ≤ j → i * m ≤ j * m := fun i j h => Nat.mul_le_mul_right m h
  have hqmN : (fin - start) / m * m ≤ fin - start := Nat.div_mul_le_self _ _
  have hmin1 : ∀ i, i + 1 ≤ (fin - start) / m →
      min (start + (i + 1) * m) fin = start + (i + 1) * m := by
    intro i hi
    have h1 : (i + 1) * m ≤ (fin - start) / m * m := hmul _ _ hi
    exact min_eq_left (by omega)
  have hminq : min (start + ((fin - start) / m + 1) * m) fin = fin := by
    have h1 : ((fin - start) / m + 1) * m = (fin - start) / m * m + m := by ring
    exact min_eq_right (by omega)
  have hlt : (fin - start) / m * m < fin - start := by omega
  have hup : fin - start ≤ ((fin - start) / m + 1) * m := by
    have h1 : ((fin - start) / m + 1) * m = (fin - start) / m * m + m := by ring
    omega
  have hcond : ((fin : ℚ) - (start : ℚ)) / (sr : ℚ) > maxd := by
    rw [hcast, gt_iff_lt, lt_div_iff₀ hsrq, hm]
    exact_mod_cast (by omega : m < fin - start)
  set q := (fin - start) / m with hqdef
  refine ⟨?_, ?_, ?_, ?_, ⟨?_, ?_⟩, ?_⟩
  · -- count = ceil(duration / max_duration)
    have h2 : ((fin : ℚ) - (start : ℚ)) / (sr : ℚ) / maxd =
        ((fin - start : ℕ) : ℚ) / ((m : ℕ) : ℚ) := by
      rw [hcast, hmaxd]; field_simp
    rw [hlen, h2, eq_comm, Int.ceil_eq_iff]
    constructor
    · rw [lt_div_iff₀ hmq]
      have hc : (((fin - start) / m * m : ℕ) : ℚ) < ((fin - start : ℕ) : ℚ) := by
        exact_mod_cast hlt
      push_cast at hc ⊢
      linarith
    · rw [div_le_iff₀ hmq]
      have hc : ((fin - start : ℕ) : ℚ) ≤ ((((fin - start) / m + 1) * m : ℕ) : ℚ) := by
        exact_mod_cast hup
      push_cast at hc ⊢
      linarith
  · -- every sub-range is at most max_duration long
    intro p hp
    rw [hL] at hp
    obtain ⟨j, hjr, hfj⟩ := List.mem_map.mp hp
    have hj : j < q + 1 := List.mem_range.mp hjr
    have hjq : j * m ≤ q * m := hmul _ _ (by omega)
    have hjm : (j + 1) * m = j * m + m := by ring
    have hle : start + j * m ≤ min (start + (j + 1) * m) fin :=
      le_min (by omega) (by omega)
    have hdle : min (start + (j + 1) * m) fin - (start + j * m) ≤ m := by
      rcases min_cases (start + (j + 1) * m) fin with ⟨hmn, _⟩ | ⟨hmn, _⟩ <;> rw [hmn] <;> omega
    subst hfj
    refine ⟨hle, ?_⟩
    have hsub : ((min (start + (j + 1) * m) fin : ℕ) : ℚ) - ((start + j * m : ℕ) : ℚ)
        = ((min (start + (j + 1) * m) fin - (start + j * m) : ℕ) : ℚ) := by
      rw [Nat.cast_sub hle]
    simp only [hsub, hmaxd]
    have h3 : ((min (start + (j + 1) * m) fin - (start + j * m) : ℕ) : ℚ) ≤ (m : ℚ) := by
      exact_mod_cast hdle
    exact (div_le_div_iff_of_pos_right hsrq).mpr h3
  · -- all but the last are exactly max_duration * sr samples long
    intro i hi
    rw [hlen] at hi
    rw [hget i (by omega), hmin1 i (by omega)]
    have h1 : (i + 1) * m = i * m + m := by ring
    simp only
    omega
  · -- contiguous: each sub-range ends where the next begins
    intro i hi
    rw [hlen] at hi
    rw [hget i (by omega), hget (i + 1) (by omega), hmin1 i (by omega)]
  · -- the first sub-range starts at the interval start
    rw [hget 0 (Nat.succ_pos _)]
    simp
  · -- the last sub-range ends at the interval end
    rw [hlen]
    simp only [Nat.add_sub_cancel]
    rw [hget q (Nat.lt_succ_self _), hminq]
  · -- the seg-and-transcribe splitter keeps exactly the sub-ranges of
    -- duration ≥ min_duration
    rw [hL, ← process_one_audio_splits_eq_of_mul start fin sr m maxd hsr hm hmpos hlong]
    simp only [segment_audio_with_vad_splits, process_one_audio_splits]
    rw [if_pos hcond, if_pos hcond]

/-! ### Bounds and ordering of the split ranges, for arbitrary `max_duration` -/

theorem process_one_audio_splits_bounds (start fin sr : ℕ) (maxd : ℚ)
    (hsr : 0 < sr) (hmax : 0 < maxd) (hse : start ≤ fin) :
    (∀ p ∈ process_one_audio_splits start fin sr maxd,
        start ≤ p.1 ∧ p.1 ≤ p.2 ∧ p.2 ≤ fin)
    ∧ (process_one_audio_splits start fin sr maxd).Pairwise (fun a b => a.2 ≤ b.1) := by
  have hsrq : (0 : ℚ) < (sr : ℚ) := by exact_mod_cast hsr
  by_cases hc : ((fin : ℚ) - (start : ℚ)) / (sr : ℚ) > maxd
  · have hkey : ∀ y z : ℚ, y ≤ z →
        (⌊y * maxd * (sr : ℚ)⌋).toNat ≤ (⌊z * maxd * (sr : ℚ)⌋).toNat := by
      intro y z h
      exact Int.toNat_le_toNat (Int.floor_le_floor
        (mul_le_mul_of_nonneg_right (mul_le_mul_of_nonneg_right h hmax.le) hsrq.le))
    have hcast : (fin : ℚ) - (start : ℚ) = ((fin - start : ℕ) : ℚ) := by
      rw [Nat.cast_sub hse]
    have hupper : ∀ j : ℕ,
        j ≤ (⌊((fin : ℚ) - (start : ℚ)) / (sr : ℚ) / maxd⌋).toNat →
        start + (⌊(j : ℚ) * maxd * (sr : ℚ)⌋).toNat ≤ fin := by
      intro j hj
      have hfl0 : (0 : ℤ) ≤ ⌊((fin : ℚ) - (start : ℚ)) / (sr : ℚ) / maxd⌋ := by
        apply Int.floor_nonneg.mpr
        exact div_nonneg (le_of_lt (lt_trans hmax hc)) hmax.le
      have hjq : (j : ℚ) ≤ ((fin : ℚ) - (start : ℚ)) / (sr : ℚ) / maxd := by
        calc (j : ℚ) ≤ ((⌊((fin : ℚ) - (start : ℚ)) / (sr : ℚ) / maxd⌋).toNat : ℚ) := by
              exact_mod_cast hj
          _ = ((⌊((fin : ℚ) - (start : ℚ)) / (sr : ℚ) / maxd⌋ : ℤ) : ℚ) := by
              exact_mod_cast Int.toNat_of_nonneg hfl0
          _ ≤ _ := Int.floor_le _
      have hprod : (j : ℚ) * maxd * (sr : ℚ) ≤ (fin : ℚ) - (start : ℚ) := by
        have h1 : (j : ℚ) * maxd ≤ ((fin : ℚ) - (start : ℚ)) / (sr : ℚ) := by
          calc (j : ℚ) * maxd ≤ ((fin : ℚ) - (start : ℚ)) / (sr : ℚ) / maxd * maxd :=
                mul_le_mul_of_nonneg_right hjq hmax.le
            _ = ((fin : ℚ) - (start : ℚ)) / (sr : ℚ) := div_mul_cancel₀ _ hmax.ne'
        calc (j : ℚ) * maxd * (sr : ℚ) ≤ ((fin : ℚ) - (start : ℚ)) / (sr : ℚ) * (sr : ℚ) :=
              mul_le_mul_of_nonneg_right h1 hsrq.le
          _ = (fin : ℚ) - (start : ℚ) := div_mul_cancel₀ _ hsrq.ne'
      have hfl : (⌊(j : ℚ) * maxd * (sr : ℚ)⌋).toNat ≤ fin - start := by
        rw [Int.toNat_le]
        calc ⌊(j : ℚ) * maxd * (sr : ℚ)⌋ ≤ ⌊(fin : ℚ) - (start : ℚ)⌋ :=
              Int.floor_le_floor hprod
          _ = ((fin - start : ℕ) : ℤ) := by rw [hcast, Int.floor_natCast]
      omega
    simp only [process_one_audio_splits]
    rw [if_pos hc]
    constructor
    · intro p hp
      obtain ⟨j, hjr, hfj⟩ := List.mem_map.mp hp
      have hj : j < (⌊((fin : ℚ) - (start : ℚ)) / (sr : ℚ) / maxd⌋).toNat + 1 :=
        List.mem_range.mp hjr
      subst hfj
      refine ⟨Nat.le_add_right _ _, le_min ?_ (hupper j (by omega)), min_le_right _ _⟩
      have h1 : (⌊(j : ℚ) * maxd * (sr : ℚ)⌋).toNat
          ≤ (⌊((j : ℚ) + 1) * maxd * (sr : ℚ)⌋).toNat :=
        hkey _ _ (by linarith)
      omega
    · rw [List.pairwise_map]
      apply (List.pairwise_lt_range _).imp_of_mem
      intro j k hjr hkr hjk
      simp only
      calc min (start + (⌊((j : ℚ) + 1) * maxd * (sr : ℚ)⌋).toNat) fin
          ≤ start + (⌊((j : ℚ) + 1) * maxd * (sr : ℚ)⌋).toNat := min_le_left _ _
        _ ≤ start + (⌊(k : ℚ) * maxd * (sr : ℚ)⌋).toNat := by
            have := hkey ((j : ℚ) + 1) (k : ℚ) (by exact_mod_cast hjk)
            omega
  · simp only [process_one_audio_splits]
    rw [if_neg hc]
    exact ⟨by simp [hse], List.pairwise_singleton _ _⟩

/-- The `seg-and-transcribe` splitter produces a sublist of the
`save_short_and_timestamps` splitter's output. -/
theorem segment_audio_with_vad_splits_sublist (start fin sr : ℕ) (mind maxd : ℚ) :
    (segment_audio_with_vad_splits start fin sr mind maxd).Sublist
      (process_one_audio_splits start fin sr maxd) := by
  simp only [segment_audio_with_vad_splits, process_one_audio_splits]
  split_ifs with h1 h2
  · exact List.filter_sublist _
  · exact List.Sublist.refl _
  · exact List.nil_sublist _

/-- Claim C4, amended: over any sorted list of disjoint intervals with
`start ≤ end`, both splitters produce ranges that are non-overlapping and
ordered by original interval index, and every produced segment satisfies
`start ≤ end` (i.e. `end - start ≥ 0`; strict positivity fails, see the
counterexample). -/
theorem allSplits_invariants (intervals : List (ℕ × ℕ)) (sr : ℕ) (mind maxd : ℚ)
    (hsr : 0 < sr) (hmax : 0 < maxd)
    (hiv : ∀ p ∈ intervals, p.1 ≤ p.2)
    (hsorted : intervals.Pairwise (fun a b => a.2 ≤ b.1)) :
    (∀ s ∈ process_one_audio_allSplits intervals sr maxd, s.1 ≤ s.2)
    ∧ (process_one_audio_allSplits intervals sr maxd).Pairwise (fun a b => a.2 ≤ b.1)
    ∧ (∀ s ∈ segment_audio_with_vad_allSplits intervals sr mind maxd, s.1 ≤ s.2)
    ∧ (segment_audio_with_vad_allSplits intervals sr mind maxd).Pairwise
        (fun a b => a.2 ≤ b.1) := by
  have hb := fun p (hp : p ∈ intervals) =>
    process_one_audio_splits_bounds p.1 p.2 sr maxd hsr hmax (hiv p hp)
  have hmem : ∀ p ∈ intervals, ∀ s ∈ process_one_audio_splits p.1 p.2 sr maxd,
      p.1 ≤ s.1 ∧ s.1 ≤ s.2 ∧ s.2 ≤ p.2 := fun p hp => (hb p hp).1
  have hmem2 : ∀ p ∈ intervals, ∀ s ∈ segment_audio_with_vad_splits p.1 p.2 sr mind maxd,
      p.1 ≤ s.1 ∧ s.1 ≤ s.2 ∧ s.2 ≤ p.2 := by
    intro p hp s hs
    exact hmem p hp s
      ((segment_audio_with_vad_splits_sublist p.1 p.2 sr mind maxd).subset hs)
  refine ⟨?_, ?_, ?_, ?_⟩
  · intro s hs
    obtain ⟨p, hp, hsp⟩ := List.mem_flatMap.mp hs
    exact (hmem p hp s hsp).2.1
  · rw [process_one_audio_allSplits, List.pairwise_flatMap]
    refine ⟨fun p hp => (hb p hp).2, ?_⟩
    refine hsorted.imp_of_mem ?_
    intro p p' hp hp' hrel x hx y hy
    calc x.2 ≤ p.2 := (hmem p hp x hx).2.2
      _ ≤ p'.1 := hrel
      _ ≤ y.1 := (hmem p' hp' y hy).1
  · intro s hs
    obtain ⟨p, hp, hsp⟩ := List.mem_flatMap.mp hs
    exact (hmem2 p hp s hsp).2.1
  · rw [segment_audio_with_vad_allSplits, List.pairwise_flatMap]
    refine ⟨fun p hp => List.Pairwise.sublist
      (segment_audio_with_vad_splits_sublist p.1 p.2 sr mind maxd) (hb p hp).2, ?_⟩
    refine hsorted.imp_of_mem ?_
    intro p p' hp hp' hrel x hx y hy
    calc x.2 ≤ p.2 := (hmem2 p hp x hx).2.2
      _ ≤ p'.1 := hrel
      _ ≤ y.1 := (hmem2 p' hp' y hy).1

/-- Claim C4, counterexample: a 10 s interval at 1000 Hz with
`max_duration = 5` produces the empty segment `(10000, 10000)`, whose
`end - start` is not positive — refuting "every produced segment satisfies
`end - start > 0`". -/
theorem allSplits_zero_length_segment_cex :
    (10000, 10000) ∈ process_one_audio_allSplits [(0, 10000)] 1000 5
    ∧ ¬ (0 < 10000 - 10000) := by
  refine ⟨?_, by decide⟩
  have h := process_one_audio_splits_eq_of_mul 0 10000 1000 5000 5 (by norm_num)
    (by norm_num) (by norm_num) (by norm_num)
  simp only [process_one_audio_allSplits, List.flatMap_cons, List.flatMap_nil,
    List.append_nil]
  rw [h]
  norm_num [List.range_succ]

/-- Claim C4, witness: the invariants theorem applied to the concrete interval
list `[(0, 3), (5, 9)]` at 1 Hz with `min_duration = 1`, `max_duration = 2`. -/
theorem allSplits_invariants_witness :
    (∀ s ∈ process_one_audio_allSplits [(0, 3), (5, 9)] 1 2, s.1 ≤ s.2)
    ∧ (process_one_audio_allSplits [(0, 3), (5, 9)] 1 2).Pairwise
        (fun a b => a.2 ≤ b.1)
    ∧ (∀ s ∈ segment_audio_with_vad_allSplits [(0, 3), (5, 9)] 1 1 2, s.1 ≤ s.2)
    ∧ (segment_audio_with_vad_allSplits [(0, 3), (5, 9)] 1 1 2).Pairwise
        (fun a b => a.2 ≤ b.1) :=
  allSplits_invariants [(0, 3), (5, 9)] 1 1 2 (by norm_num) (by norm_num)
    (by decide) (by decide)

/-- Claim C1, counterexample: (i) a 10 s interval at 1000 Hz with
`max_duration = 5` — duration an exact multiple of `max_duration` — is split by
`process_one_audio` into 3 sub-ranges although `ceil(10/5) = 2`; (ii) a 12 s
interval at 1000 Hz with `max_duration = 5`, `min_duration = 3` is split by
`segment_audio_with_vad` into only 2 sub-ranges (the 2 s remainder is
dropped), although `ceil(12/5) = 3`, so the sub-ranges do not cover the
interval. -/
theorem splitter_ceil_count_cex :
    ((process_one_audio_splits 0 10000 1000 5).length = 3
      ∧ ⌈((10000 : ℚ) - (0 : ℚ)) / (1000 : ℚ) / 5⌉ = 2)
    ∧ (segment_audio_with_vad_splits 0 12000 1000 3 5 = [(0, 5000), (5000, 10000)]
      ∧ ⌈((12000 : ℚ) - (0 : ℚ)) / (1000 : ℚ) / 5⌉ = 3) := by
  refine ⟨⟨?_, by norm_num⟩, ?_, by norm_num [Int.ceil_eq_iff]⟩
  · rw [process_one_audio_splits_eq_of_mul 0 10000 1000 5000 5 (by norm_num)
      (by norm_num) (by norm_num) (by norm_num)]
    simp
  · unfold segment_audio_with_vad_splits
    norm_num
    rw [show ((2 : ℤ).toNat) = 2 from rfl]
    norm_num [List.range_succ]
    rw [show ((5000 : ℤ).toNat) = 5000 from rfl, show ((10000 : ℤ).toNat) = 10000 from rfl]
    norm_num [List.filter_cons]

/-- Claim C1, witness: the partition theorem applied to a 12 s interval at
1000 Hz with `max_duration = 5` (so `m = 5000` samples, duration not an exact
multiple of `max_duration`). -/
theorem process_one_audio_splits_partition_witness :
    (((process_one_audio_splits 0 12000 1000 5).length : ℤ)
      = ⌈((12000 : ℚ) - (0 : ℚ)) / (1000 : ℚ) / 5⌉)
    ∧ ((process_one_audio_splits 0 12000 1000 5).getD 0 (0, 0)).1 = 0 :=
  ⟨(process_one_audio_splits_partition 0 12000 1000 5000 5 1 _ (by norm_num)
      (by norm_num) (by norm_num) (by norm_num) (by decide) rfl).1,
   ((process_one_audio_splits_partition 0 12000 1000 5000 5 1 _ (by norm_num)
      (by norm_num) (by norm_num) (by norm_num) (by decide) rfl).2.2.2.2.1.1)⟩

/-! ## SNR categorization thresholds (claim C8) -/

/-- Claim C8: SNR categorization is a pure total function of the numeric score
with fixed half-open thresholds: `x < 0 ↦ "Very low SNR"`,
`0 ≤ x < 5 ↦ "Low SNR"`, `5 ≤ x < 15 ↦ "Medium SNR"`,
`15 ≤ x < 25 ↦ "High SNR"`, `x ≥ 25 ↦ "Very high SNR"`. -/
theorem categorize_snr_thresholds (x : ℚ) :
    (x < 0 → categorize_snr x = "Very low SNR")
    ∧ (0 ≤ x → x < 5 → categorize_snr x = "Low SNR")
    ∧ (5 ≤ x → x < 15 → categorize_snr x = "Medium SNR")
    ∧ (15 ≤ x → x < 25 → categorize_snr x = "High SNR")
    ∧ (25 ≤ x → categorize_snr x = "Very high SNR") := by
  unfold categorize_snr
  refine ⟨fun h0 => ?_, fun h0 h5 => ?_, fun h5 h15 => ?_, fun h15 h25 => ?_,
    fun h25 => ?_⟩
  · rw [if_pos h0]
  · rw [if_neg (not_lt.mpr h0), if_pos h5]
  · rw [if_neg (not_lt.mpr (by linarith)), if_neg (not_lt.mpr h5), if_pos h15]
  · rw [if_neg (not_lt.mpr (by linarith)), if_neg (not_lt.mpr (by linarith)),
      if_neg (not_lt.mpr h15), if_pos h25]
  · rw [if_neg (not_lt.mpr (by linarith)), if_neg (not_lt.mpr (by linarith)),
      if_neg (not_lt.mpr (by linarith)), if_neg (not_lt.mpr h25)]

/-- Claim C8, witness: `0 ↦ "Low SNR"`, `24.999 ↦ "High SNR"`,
`25 ↦ "Very high SNR"`. -/
theorem categorize_snr_thresholds_witness :
    categorize_snr 0 = "Low SNR"
    ∧ categorize_snr (24999 / 1000) = "High SNR"
    ∧ categorize_snr 25 = "Very high SNR" :=
  ⟨(categorize_snr_thresholds 0).2.1 (by norm_num) (by norm_num),
   (categorize_snr_thresholds (24999 / 1000)).2.2.2.1 (by norm_num) (by norm_num),
   (categorize_snr_thresholds 25).2.2.2.2 (by norm_num)⟩

/-! ## Total duration of a manifest (`calculate-duration.py`, claim C10)

`calculate_audio_hours`, lines 29-37: starting from `0.0`, the loop adds
`entry.get('duration', 0.0)` for each entry, then divides by 3600.  A JSON
entry is modelled as an association list of string keys and numeric values. -/

def total_duration_seconds (manifest : List (List (String × ℚ))) : ℚ :=
  manifest.foldl (fun acc entry => acc + ((entry.lookup "duration").getD 0)) 0

def calculate_audio_hours (manifest : List (List (String × ℚ))) : ℚ :=
  total_duration_seconds manifest / 3600

theorem total_duration_seconds_go (manifest : List (List (String × ℚ))) (a : ℚ) :
    manifest.foldl (fun acc entry => acc + ((entry.lookup "duration").getD 0)) a
      = a + (manifest.map (fun entry => (entry.lookup "duration").getD 0)).sum := by
  induction manifest generalizing a with
  | nil => simp
  | cons e rest ih => simp [List.foldl_cons, ih]; ring

/-- Claim C10: the total duration computed by the duration calculator equals
the sum of the entries' `duration` fields, where an entry with no `duration`
field contributes exactly `0.0` (removing such an entry does not change the
total, and the sum never aborts). -/
theorem calculate_audio_hours_sum (manifest : List (List (String × ℚ))) :
    (total_duration_seconds manifest
      = (manifest.map (fun entry => (entry.lookup "duration").getD 0)).sum)
    ∧ (∀ pre post (e : List (String × ℚ)), e.lookup "duration" = none →
        total_duration_seconds (pre ++ e :: post)
          = total_duration_seconds (pre ++ post))
    ∧ calculate_audio_hours manifest
      = (manifest.map (fun entry => (entry.lookup "duration").getD 0)).sum / 3600 := by
  refine ⟨?_, ?_, ?_⟩
  · simpa using total_duration_seconds_go manifest 0
  · intro pre post e he
    unfold total_duration_seconds
    rw [total_duration_seconds_go _ 0, total_duration_seconds_go _ 0]
    simp [he]
  · unfold calculate_audio_hours
    rw [show total_duration_seconds manifest
      = (manifest.map (fun entry => (entry.lookup "duration").getD 0)).sum by
        simpa using total_duration_seconds_go manifest 0]

/-- Claim C10, witness: an entry with no `duration` key contributes `0`. -/
theorem calculate_audio_hours_sum_witness :
    total_duration_seconds [[("duration", (3 : ℚ))], [("snr", 7)], [("duration", 4)]]
      = total_duration_seconds [[("duration", (3 : ℚ))], [("duration", 4)]] :=
  (calculate_audio_hours_sum []).2.1 [[("duration", (3 : ℚ))]] [[("duration", 4)]]
    [("snr", 7)] rfl

/-! ## Retry wrappers (`save_short_and_timestamps.py`, lines 46-66, claim C3)

`safe_download_blob` / `safe_save_waveform`:

    for attempt in range(retries + 1):
        try: op(); return
        except Exception as e:
            last_exc = e
            time.sleep(base * (attempt + 1))
    raise last_exc

An attempt is modelled by `op : ℕ → Option ε` (`none` = success at that
attempt, `some e` = the exception raised).  The function either returns
normally or raises; the pair's second component is the list of sleep delays
performed. -/

inductive PyOutcome (ε : Type) : Type where
  | returned : PyOutcome ε
  | raised : ε → PyOutcome ε
deriving DecidableEq

def retry_go (op : ℕ → Option ε) (base : ℚ) :
    ℕ → ℕ → Option ε → PyOutcome (Option ε) × List ℚ
  | _, 0, last => (.raised last, [])
  | attempt, fuel + 1, _ =>
    match op attempt with
    | none => (.returned, [])
    | some e =>
      let r := retry_go op base (attempt + 1) fuel (some e)
      (r.1, base * ((attempt : ℚ) + 1) :: r.2)

/-- `safe_download_blob` with its `time.sleep(0.5 * (attempt + 1))` backoff. -/
def safe_download_blob (op : ℕ → Option ε) (retries : ℕ) :
    PyOutcome (Option ε) × List ℚ :=
  retry_go op (1 / 2) 0 (retries + 1) none

/-- `safe_save_waveform` with its `time.sleep(0.2 * (attempt + 1))` backoff. -/
def safe_save_waveform (op : ℕ → Option ε) (retries : ℕ) :
    PyOutcome (Option ε) × List ℚ :=
  retry_go op (1 / 5) 0 (retries + 1) none

/-- The per-item boundary (`process_one_audio`, lines 100-104): the raised
exception is caught and converted into a returned, tagged failure record. -/
def download_stage (op : ℕ → Option ε) (retries : ℕ) : Option (String × Option ε) :=
  match (safe_download_blob op retries).1 with
  | .returned => none
  | .raised e => some ("download_error", e)

theorem retry_go_all_fail (op : ℕ → Option ε) (base : ℚ) (e : ℕ → ε)
    (he : ∀ k, op k = some (e k)) :
    ∀ fuel attempt last,
      retry_go op base attempt fuel last
        = (.raised (if fuel = 0 then last else some (e (attempt + fuel - 1))),
           (List.range fuel).map (fun k => base * (((attempt + k : ℕ) : ℚ) + 1))) := by
  intro fuel
  induction fuel with
  | zero => intro attempt last; simp [retry_go]
  | succ n ih =>
    intro attempt last
    rw [retry_go]
    rw [he attempt]
    simp only
    rw [ih (attempt + 1) (some (e attempt))]
    rcases Nat.eq_zero_or_pos n with hn | hn
    · subst hn
      simp [List.range_succ]
    · rw [if_neg (by omega), if_neg (by omega)]
      have harg : attempt + 1 + n - 1 = attempt + (n + 1) - 1 := by omega
      rw [harg, List.range_succ_eq_map, List.map_cons, List.map_map]
      congr 1
      norm_num
      intro a _
      left
      ring

theorem retry_go_delays_length (op : ℕ → Option ε) (base : ℚ) :
    ∀ fuel attempt last, (retry_go op base attempt fuel last).2.length ≤ fuel := by
  intro fuel
  induction fuel with
  | zero => intro attempt last; simp [retry_go]
  | succ n ih =>
    intro attempt last
    rw [retry_go]
    rcases hop : op attempt with _ | e
    · simp
    · simpa using Nat.succ_le_succ (ih (attempt + 1) (some e))

/-- Claim C3, amended: each retry wrapper attempts the operation a bounded
number of times (at most `retries + 1`, and exactly `retries + 1` when every
attempt fails), sleeping a linearly increasing backoff delay `base * (k + 1)`
after the k-th failed attempt (`base = 0.5` for `safe_download_blob`, `0.2`
for `safe_save_waveform`); a first-attempt success returns immediately with no
delay; after exhausting all attempts the wrapper re-raises the last error
rather than returning it, and the per-item caller catches that exception and
returns it as a structured, tagged failure record. -/
theorem safe_retry_behavior (op : ℕ → Option ε) (retries : ℕ) :
    ((safe_download_blob op retries).2.length ≤ retries + 1
      ∧ (safe_save_waveform op retries).2.length ≤ retries + 1)
    ∧ (op 0 = none →
        safe_download_blob op retries = (.returned, [])
        ∧ safe_save_waveform op retries = (.returned, []))
    ∧ (∀ e : ℕ → ε, (∀ k, op k = some (e k)) →
        (safe_download_blob op retries
            = (.raised (some (e retries)),
               (List.range (retries + 1)).map (fun (k : ℕ) => 1 / 2 * ((k : ℚ) + 1))))
        ∧ (safe_save_waveform op retries
            = (.raised (some (e retries)),
               (List.range (retries + 1)).map (fun (k : ℕ) => 1 / 5 * ((k : ℚ) + 1))))
        ∧ (safe_download_blob op retries).2.Pairwise (· < ·)
        ∧ download_stage op retries = some ("download_error", some (e retries))) := by
  refine ⟨⟨retry_go_delays_length op _ _ _ _, retry_go_delays_length op _ _ _ _⟩,
    ?_, ?_⟩
  · intro h0
    constructor
    · unfold safe_download_blob
      rw [retry_go, h0]
    · unfold safe_save_waveform
      rw [retry_go, h0]
  · intro e he
    have hdl : safe_download_blob op retries
        = (.raised (some (e retries)),
           (List.range (retries + 1)).map (fun (k : ℕ) => 1 / 2 * ((k : ℚ) + 1))) := by
      unfold safe_download_blob
      rw [retry_go_all_fail op _ e he]
      simp
    have hsv : safe_save_waveform op retries
        = (.raised (some (e retries)),
           (List.range (retries + 1)).map (fun (k : ℕ) => 1 / 5 * ((k : ℚ) + 1))) := by
      unfold safe_save_waveform
      rw [retry_go_all_fail op _ e he]
      simp
    refine ⟨hdl, hsv, ?_, ?_⟩
    · rw [hdl]
      simp only
      rw [List.pairwise_map]
      refine List.Pairwise.imp ?_ (List.pairwise_lt_range _)
      intro a b hab
      have hq : (a : ℚ) < (b : ℚ) := by exact_mod_cast hab
      linarith
    · unfold download_stage
      rw [hdl]

/-- Claim C3, counterexample: with an operation failing on every attempt,
`safe_download_blob` terminates by raising the last error — the wrapper itself
raises rather than returning the error (the conversion to a returned value
happens only in the caller `process_one_audio`). -/
theorem safe_download_blob_raises_cex :
    (safe_download_blob (fun _ => some (0 : ℕ)) 2).1 = PyOutcome.raised (some 0)
    ∧ (safe_download_blob (fun _ => some (0 : ℕ)) 2).1 ≠ PyOutcome.returned := by
  exact ⟨rfl, by decide⟩

/-- Claim C3, witness: the retry theorem applied to an operation that always
fails with error `7`, with `retries = 1`. -/
theorem safe_retry_behavior_witness :
    (safe_download_blob (fun _ => some (7 : ℕ)) 1
        = (PyOutcome.raised (some 7),
           (List.range 2).map (fun (k : ℕ) => 1 / 2 * ((k : ℚ) + 1))))
    ∧ download_stage (fun _ => some (7 : ℕ)) 1 = some ("download_error", some 7) :=
  ⟨((safe_retry_behavior (fun _ => some (7 : ℕ)) 1).2.2 (fun _ => 7)
      (fun _ => rfl)).1,
   ((safe_retry_behavior (fun _ => some (7 : ℕ)) 1).2.2 (fun _ => 7)
      (fun _ => rfl)).2.2.2⟩

/-! ## Bulk harness result aggregation (`save_short_and_timestamps.py`,
`main`, lines 279-286, claim C2)

    with cf.ThreadPoolExecutor(max_workers=...) as ex:
        for (src_name, status, items, err) in ex.map(lambda p: process_one_audio(*p), jobs):
            if status != "OK" or items is None:
                errors += 1; continue
            all_manifest_items.extend(items)
            processed += 1

`ThreadPoolExecutor.map` yields results in submission order: the iterator
waits for job 0's result, yields it, then job 1's, and so on, regardless of
the order in which jobs finish.  A completion schedule is modelled as the list
`arrivals` of `(job index, result)` pairs in finish order. -/

structure WorkResult (α : Type) where
  src_name : String
  status : String
  items : Option (List α)
  err : Option String

/-- The sequence of results yielded by `ex.map`: job `i`'s result at position
`i`, whatever the completion schedule `arrivals` was. -/
def executor_map_yield (n : ℕ) (arrivals : List (ℕ × WorkResult α)) :
    List (WorkResult α) :=
  (List.range n).filterMap (fun i => (arrivals.find? (fun q => q.1 == i)).map Prod.snd)

/-- The `main` collection loop: concatenated manifest items of successful
results, processed count, error count. -/
def main_collect (results : List (WorkResult α)) : List α × ℕ × ℕ :=
  results.foldl
    (fun acc r =>
      if r.status ≠ "OK" ∨ r.items.isNone then (acc.1, acc.2.1, acc.2.2 + 1)
      else (acc.1 ++ r.items.getD [], acc.2.1 + 1, acc.2.2))
    ([], 0, 0)

/-- The harness end to end: what `main` collects under completion schedule
`arrivals` for `n` submitted jobs. -/
def main_aggregate (arrivals : List (ℕ × WorkResult α)) (n : ℕ) : List α × ℕ × ℕ :=
  main_collect (executor_map_yield n arrivals)

/-- Modelled from the claim's words (not from the source): aggregation in
completion order — results folded in the order the jobs finished. -/
def completion_order_aggregate (arrivals : List (ℕ × WorkResult α)) :
    List α × ℕ × ℕ :=
  main_collect (arrivals.map Prod.snd)

theorem filterMap_range_of_get (l : List β) (g : ℕ → Option β)
    (hg : ∀ i (hi : i < l.length), g i = some (l.get ⟨i, hi⟩)) :
    (List.range l.length).filterMap g = l := by
  have hstep : ∀ n, n ≤ l.length → (List.range n).filterMap g = l.take n := by
    intro n
    induction n with
    | zero => intro _; simp
    | succ k ih =>
      intro hk
      rw [List.range_succ, List.filterMap_append, ih (by omega), List.take_succ]
      have hkl : k < l.length := by omega
      simp [hg k hkl, List.getElem?_eq_getElem hkl]
  simpa using hstep l.length le_rfl

/-- Claim C2, amended: the bulk harness concatenates successful per-item
results in submission order (the order of the input work-item list), not in
completion order — `ThreadPoolExecutor.map` yields results in the order jobs
were submitted, so the final manifest's entry order reflects the input
work-item order regardless of the order in which items finished. -/
theorem main_aggregate_submission_order (results : List (WorkResult α))
    (arrivals : List (ℕ × WorkResult α))
    (harr : ∀ i (hi : i < results.length),
        arrivals.find? (fun q => q.1 == i) = some (i, results.get ⟨i, hi⟩)) :
    main_aggregate arrivals results.length = main_collect results := by
  unfold main_aggregate
  congr 1
  apply filterMap_range_of_get
  intro i hi
  rw [harr i hi]
  rfl

/-- Claim C2, counterexample: two jobs where job 1 finishes before job 0; the
manifest is `[1, 2]` (submission order), not `[2, 1]` (completion order). -/
theorem main_aggregate_completion_order_cex :
    (main_aggregate [(1, ⟨"b", "OK", some [2], none⟩),
        (0, ⟨"a", "OK", some [(1 : ℕ)], none⟩)] 2).1 = [1, 2]
    ∧ (completion_order_aggregate [(1, ⟨"b", "OK", some [2], none⟩),
        (0, ⟨"a", "OK", some [(1 : ℕ)], none⟩)]).1 = [2, 1]
    ∧ ([1, 2] : List ℕ) ≠ [2, 1] := by
  refine ⟨by decide, by decide, by decide⟩

/-- Claim C2, witness: the submission-order theorem applied to the two-job
schedule in which job 1 finishes first. -/
theorem main_aggregate_submission_order_witness :
    main_aggregate [(1, ⟨"b", "OK", some [2], none⟩),
        (0, ⟨"a", "OK", some [(1 : ℕ)], none⟩)] 2
      = main_collect [⟨"a", "OK", some [(1 : ℕ)], none⟩, ⟨"b", "OK", some [2], none⟩] :=
  main_aggregate_submission_order
    [⟨"a", "OK", some [(1 : ℕ)], none⟩, ⟨"b", "OK", some [2], none⟩]
    [(1, ⟨"b", "OK", some [2], none⟩), (0, ⟨"a", "OK", some [(1 : ℕ)], none⟩)]
    (by
      intro i hi
      simp only [List.length_cons, List.length_nil] at hi
      interval_cases i <;> rfl)

/-! ## Interval mask engine (`calculate_snr.py`, `_intervals_to_mask`,
lines 16-24, claim C5)

    g = int(round(guard_s * sr))
    m = np.zeros(n, dtype=bool)
    for s, e in intervals:
        s = max(0, s - g); e = min(n, e + g)
        if s < e:
            m[s:e] = True
    return m

Interval endpoints are sample indices (ℕ), so `max(0, s - g)` is ℕ truncated
subtraction.  The guard in samples `g = int(round(guard_s * sr))` — which is
non-negative exactly when `guard_s ≥ 0` — is the `g : ℕ` parameter.  The mask
is modelled as its characteristic function on sample indices. -/

def intervals_to_mask (intervals : List (ℕ × ℕ)) (n : ℕ) (g : ℕ) : ℕ → Bool :=
  intervals.foldl
    (fun m p =>
      let s := p.1 - g
      let e := min n (p.2 + g)
      if s < e then (fun i => if s ≤ i ∧ i < e then true else m i) else m)
    (fun _ => false)

theorem intervals_to_mask_go (n g : ℕ) (intervals : List (ℕ × ℕ)) :
    ∀ (m0 : ℕ → Bool) (i : ℕ),
      (intervals.foldl
        (fun m p =>
          let s := p.1 - g
          let e := min n (p.2 + g)
          if s < e then (fun i => if s ≤ i ∧ i < e then true else m i) else m)
        m0) i = true
      ↔ (m0 i = true ∨ (i < n ∧ ∃ p ∈ intervals, p.1 - g ≤ i ∧ i < p.2 + g)) := by
  induction intervals with
  | nil => intro m0 i; simp
  | cons p rest ih =>
    intro m0 i
    rw [List.foldl_cons, ih]
    simp only [List.mem_cons]
    constructor
    · rintro (hstep | hrest)
      · by_cases hc : p.1 - g < min n (p.2 + g)
        · rw [if_pos hc] at hstep
          by_cases hi : p.1 - g ≤ i ∧ i < min n (p.2 + g)
          · right
            exact ⟨by omega, p, Or.inl rfl, by omega, by omega⟩
          · rw [if_neg hi] at hstep
            exact Or.inl hstep
        · rw [if_neg hc] at hstep
          exact Or.inl hstep
      · exact Or.inr ⟨hrest.1, hrest.2.choose, Or.inr hrest.2.choose_spec.1,
          hrest.2.choose_spec.2⟩
    · rintro (hm | ⟨hin, q, hq | hq, h1, h2⟩)
      · by_cases hc : p.1 - g < min n (p.2 + g)
        · rw [if_pos hc]
          by_cases hi : p.1 - g ≤ i ∧ i < min n (p.2 + g)
          · exact Or.inl (by rw [if_pos hi])
          · exact Or.inl (by rw [if_neg hi]; exact hm)
        · rw [if_neg hc]
          exact Or.inl hm
      · rw [hq] at h1 h2
        left
        have hc : p.1 - g < min n (p.2 + g) := by omega
        rw [if_pos hc, if_pos (by omega : p.1 - g ≤ i ∧ i < min n (p.2 + g))]
      · exact Or.inr ⟨hin, q, hq, h1, h2⟩

/-- Claim C5: the mask built by `_intervals_to_mask` marks present exactly the
samples lying inside some interval expanded by the guard on both sides and
clipped to `[0, n)`; an empty interval list yields an all-False mask. -/
theorem intervals_to_mask_spec (intervals : List (ℕ × ℕ)) (n g : ℕ) :
    (∀ i, intervals_to_mask intervals n g i = true
      ↔ (i < n ∧ ∃ p ∈ intervals, p.1 - g ≤ i ∧ i < p.2 + g))
    ∧ (∀ i, intervals_to_mask [] n g i = false) := by
  constructor
  · intro i
    unfold intervals_to_mask
    rw [intervals_to_mask_go n g intervals (fun _ => false) i]
    simp
  · intro i
    rfl

/-! ## Short-island suppression (`calculate_snr.py`, `_merge_short_islands`,
lines 26-39, claim C6)

    n = len(mask); i = 0
    while i < n:
        if mask[i]:
            j = i + 1
            while j < n and mask[j]:
                j += 1
            if (j - i) < min_len:
                mask[i:j] = False
            i = j
        else:
            i += 1
    return mask

The scan consumes one False entry, or a whole maximal True run at once,
clearing the run when it is shorter than `min_len`. -/

def merge_short_islands (min_len : ℕ) : List Bool → List Bool
  | [] => []
  | false :: rest => false :: merge_short_islands min_len rest
  | true :: rest =>
    (if (rest.takeWhile (fun b => b)).length + 1 < min_len then
      List.replicate ((rest.takeWhile (fun b => b)).length + 1) false
     else
      List.replicate ((rest.takeWhile (fun b => b)).length + 1) true)
      ++ merge_short_islands min_len (rest.dropWhile (fun b => b))
termination_by l => l.length
decreasing_by
  · simp
  · have h := List.Sublist.length_le
      (List.dropWhile_sublist (l := rest) (fun b : Bool => b))
    simp
    omega

theorem getD_replicate (a d : α) : ∀ n i, i < n → (List.replicate n a).getD i d = a := by
  intro n
  induction n with
  | zero => omega
  | succ k ih =>
    intro i hi
    rw [List.replicate_succ]
    match i with
    | 0 => rfl
    | j + 1 => exact ih j (by omega)

theorem dropWhile_id_head (l : List Bool) :
    l.dropWhile (fun b => b) = []
    ∨ ∃ xs, l.dropWhile (fun b => b) = false :: xs := by
  induction l with
  | nil => exact Or.inl rfl
  | cons x xs ih =>
    cases x with
    | false => exact Or.inr ⟨xs, rfl⟩
    | true => simpa [List.dropWhile_cons] using ih

theorem merge_short_islands_length (m : ℕ) (l : List Bool) :
    (merge_short_islands m l).length = l.length := by
  suffices H : ∀ n (l : List Bool), l.length ≤ n →
      (merge_short_islands m l).length = l.length from H l.length l le_rfl
  intro n
  induction n with
  | zero =>
    intro l hl
    have hnil : l = [] := List.eq_nil_of_length_eq_zero (by omega)
    subst hnil
    simp [merge_short_islands]
  | succ n ih =>
    intro l hl
    match l with
    | [] => simp [merge_short_islands]
    | false :: rest =>
      have hr : rest.length ≤ n := by simp at hl; omega
      simp only [merge_short_islands, List.length_cons]
      rw [ih rest hr]
    | true :: rest =>
      have hsplit := List.takeWhile_append_dropWhile (fun b : Bool => b) rest
      have hlen : (rest.takeWhile (fun b => b)).length
          + (rest.dropWhile (fun b => b)).length = rest.length := by
        rw [← List.length_append, hsplit]
      have hd : (rest.dropWhile (fun b => b)).length ≤ n := by
        simp at hl
        omega
      simp only [merge_short_islands, List.length_append]
      rw [ih _ hd]
      split_ifs <;> simp <;> omega

/-- A sample `i` lies in an all-True window of length at least `m` of `l`. -/
def inBigRun (m : ℕ) (l : List Bool) (i : ℕ) : Prop :=
  ∃ a b, a ≤ i ∧ i < b ∧ m ≤ b - a ∧ ∀ k, a ≤ k → k < b → l.getD k false = true

theorem merge_short_islands_getD (m : ℕ) (l : List Bool) (i : ℕ) :
    (merge_short_islands m l).getD i false = true ↔ inBigRun m l i := by
  suffices H : ∀ n (l : List Bool), l.length ≤ n → ∀ i,
      ((merge_short_islands m l).getD i false = true ↔ inBigRun m l i) from
    H l.length l le_rfl i
  intro n
  induction n with
  | zero =>
    intro l hl i
    have hnil : l = [] := List.eq_nil_of_length_eq_zero (by omega)
    subst hnil
    simp only [merge_short_islands, List.getD_nil]
    constructor
    · intro h; exact absurd h (by simp)
    · rintro ⟨a, b, ha, hb, hm, hall⟩
      have h0 := hall i ha hb
      simp at h0
  | succ n ih =>
    intro l hl i
    match l with
    | [] =>
      simp only [merge_short_islands, List.getD_nil]
      constructor
      · intro h; exact absurd h (by simp)
      · rintro ⟨a, b, ha, hb, hm, hall⟩
        have h0 := hall i ha hb
        simp at h0
    | false :: rest =>
      have hr : rest.length ≤ n := by simp at hl; omega
      simp only [merge_short_islands]
      match i with
      | 0 =>
        rw [List.getD_cons_zero]
        constructor
        · intro h; exact absurd h (by simp)
        · rintro ⟨a, b, ha, hb, hm, hall⟩
          have h0 := hall 0 (by omega) (by omega)
          simp at h0
      | j + 1 =>
        rw [List.getD_cons_succ, ih rest hr j]
        constructor
        · rintro ⟨a, b, ha, hb, hm, hall⟩
          refine ⟨a + 1, b + 1, by omega, by omega, by omega, ?_⟩
          intro k hk1 hk2
          obtain ⟨k', rfl⟩ : ∃ k', k = k' + 1 := ⟨k - 1, by omega⟩
          rw [List.getD_cons_succ]
          exact hall k' (by omega) (by omega)
        · rintro ⟨a, b, ha, hb, hm, hall⟩
          have ha1 : 1 ≤ a := by
            by_contra hc
            have h0 := hall 0 (by omega) (by omega)
            simp at h0
          refine ⟨a - 1, b - 1, by omega, by omega, by omega, ?_⟩
          intro k hk1 hk2
          have hk := hall (k + 1) (by omega) (by omega)
          rwa [List.getD_cons_succ] at hk
    | true :: rest =>
      have hrest : rest.length ≤ n := by simp at hl; omega
      simp only [merge_short_islands]
      set t := rest.takeWhile (fun b => b) with ht
      set d := rest.dropWhile (fun b => b) with hd
      have hsplit : t ++ d = rest := by
        rw [ht, hd]; exact List.takeWhile_append_dropWhile _ _
      have htrue : ∀ x ∈ t, x = true := by
        intro x hx
        rw [ht] at hx
        simpa using List.mem_takeWhile_imp hx
      have hdhead : d = [] ∨ ∃ xs, d = false :: xs := by
        rw [hd]; exact dropWhile_id_head rest
      have hLd : t.length + d.length = rest.length := by
        have hc := congrArg List.length hsplit
        simpa using hc
      have hdlen : d.length ≤ n := by omega
      have hf3 : ∀ k, k < t.length + 1 → (true :: rest).getD k false = true := by
        intro k hk
        match k with
        | 0 => rfl
        | j + 1 =>
          have hj : j < t.length := by omega
          rw [List.getD_cons_succ, ← hsplit, List.getD_append _ _ _ _ hj,
            List.getD_eq_getElem t false hj]
          exact htrue _ (List.getElem_mem hj)
      have hf5 : ∀ k, t.length + 1 ≤ k →
          (true :: rest).getD k false = d.getD (k - (t.length + 1)) false := by
        intro k hk
        obtain ⟨j, rfl⟩ : ∃ j, k = j + 1 := ⟨k - 1, by omega⟩
        rw [List.getD_cons_succ, ← hsplit,
          List.getD_append_right _ _ _ _ (by omega)]
        congr 1
        omega
      have hf4 : (true :: rest).getD (t.length + 1) false = false := by
        rw [hf5 _ le_rfl]
        rcases hdhead with h | ⟨xs, h⟩ <;> rw [h] <;> simp
      have hblock : (if t.length + 1 < m then List.replicate (t.length + 1) false
          else List.replicate (t.length + 1) true).length = t.length + 1 := by
        split_ifs <;> simp
      by_cases hiL : i < t.length + 1
      · rw [List.getD_append _ _ _ _ (by rw [hblock]; exact hiL)]
        by_cases hLm : t.length + 1 < m
        · rw [if_pos hLm, getD_replicate false false _ i hiL]
          constructor
          · intro h; exact absurd h (by simp)
          · rintro ⟨a, b, ha, hb, hm2, hall⟩
            have hbL : b ≤ t.length + 1 := by
              by_contra hbL
              have hk := hall (t.length + 1) (by omega) (by omega)
              rw [hf4] at hk
              simp at hk
            exact absurd hLm (by omega)
        · rw [if_neg hLm, getD_replicate true false _ i hiL]
          constructor
          · intro _
            exact ⟨0, t.length + 1, by omega, hiL, by omega, fun k _ hk => hf3 k hk⟩
          · intro _; rfl
      · push_neg at hiL
        rw [List.getD_append_right _ _ _ _ (by rw [hblock]; exact hiL), hblock,
          ih d hdlen (i - (t.length + 1))]
        constructor
        · rintro ⟨a, b, ha, hb, hm2, hall⟩
          refine ⟨a + (t.length + 1), b + (t.length + 1), by omega, by omega,
            by omega, ?_⟩
          intro k hk1 hk2
          rw [hf5 k (by omega)]
          exact hall (k - (t.length + 1)) (by omega) (by omega)
        · rintro ⟨a, b, ha, hb, hm2, hall⟩
          have ha1 : t.length + 1 < a := by
            by_contra hc
            push_neg at hc
            have hk := hall (t.length + 1) (by omega) (by omega)
            rw [hf4] at hk
            simp at hk
          refine ⟨a - (t.length + 1), b - (t.length + 1), by omega, by omega,
            by omega, ?_⟩
          intro k hk1 hk2
          have hk := hall (k + (t.length + 1)) (by omega) (by omega)
          rw [hf5 _ (by omega)] at hk
          simpa using hk

/-- Claim C6: after short-run suppression the mask keeps its length, samples
are only ever cleared (never set), no contiguous True run shorter than
`min_run_samples` remains (every surviving True sample lies in an all-True
window of the result of length ≥ `min_run_samples`), and every contiguous True
run of length ≥ `min_run_samples` present beforehand is left unaltered. -/
theorem merge_short_islands_spec (m : ℕ) (mask : List Bool) :
    ((merge_short_islands m mask).length = mask.length)
    ∧ (∀ i, (merge_short_islands m mask).getD i false = true →
        mask.getD i false = true)
    ∧ (∀ i, (merge_short_islands m mask).getD i false = true →
        ∃ a b, a ≤ i ∧ i < b ∧ m ≤ b - a ∧
          ∀ k, a ≤ k → k < b → (merge_short_islands m mask).getD k false = true)
    ∧ (∀ a b, m ≤ b - a →
        (∀ k, a ≤ k → k < b → mask.getD k false = true) →
        ∀ k, a ≤ k → k < b → (merge_short_islands m mask).getD k false = true) := by
  refine ⟨merge_short_islands_length m mask, ?_, ?_, ?_⟩
  · intro i h
    obtain ⟨a, b, ha, hb, hm2, hall⟩ := (merge_short_islands_getD m mask i).mp h
    exact hall i ha hb
  · intro i h
    obtain ⟨a, b, ha, hb, hm2, hall⟩ := (merge_short_islands_getD m mask i).mp h
    refine ⟨a, b, ha, hb, hm2, ?_⟩
    intro k hk1 hk2
    exact (merge_short_islands_getD m mask k).mpr ⟨a, b, hk1, hk2, hm2, hall⟩
  · intro a b hm2 hall k hk1 hk2
    exact (merge_short_islands_getD m mask k).mpr ⟨a, b, hk1, hk2, hm2, hall⟩

/-- Claim C6, witness: in `[true, false, true, true]` with threshold 2, the
length-2 run at positions 2-3 is preserved. -/
theorem merge_short_islands_spec_witness :
    (merge_short_islands 2 [true, false, true, true]).getD 2 false = true
    ∧ (merge_short_islands 2 [true, false, true, true]).getD 3 false = true :=
  ⟨(merge_short_islands_spec 2 [true, false, true, true]).2.2.2 2 4 (by norm_num)
      (by intro k h1 h2; interval_cases k <;> rfl) 2 (by norm_num) (by norm_num),
   (merge_short_islands_spec 2 [true, false, true, true]).2.2.2 2 4 (by norm_num)
      (by intro k h1 h2; interval_cases k <;> rfl) 3 (by norm_num) (by norm_num)⟩

/-! ## Path/URI normalization (`download_from_gcs.py`, `normalize_path`,
lines 20-35, claim C9)

    def normalize_path(path: str) -> str:
        if "firebasestorage.googleapis.com" in path:
            match = re.search(r"/o/(.+)\x3f", path)      # literal: /o/(.+)\?
            if match:
                decoded = urllib.parse.unquote(match.group(1))
                return decoded.strip()
        match = re.search(r'africa-voice-mali\.firebasestorage\.app/(.+)', path)
        if match:
            return match.group(1).strip()
        return path.strip()

Strings are modelled as `List Char`.  `re.search` semantics: leftmost start
position wins; `.+` is greedy (matches a maximal run of non-newline
characters, backtracking to the last `?` for the first pattern).
`urllib.parse.unquote` is modelled at the byte level: each `%XX` hex escape
becomes the character with that code. -/

/-- The characters Python's `str.strip()` removes, i.e. those for which
`str.isspace()` holds: U+0009–U+000D, U+001C–U+001F, the space U+0020,
U+0085, U+00A0, U+1680, U+2000–U+200A, U+2028, U+2029, U+202F, U+205F and
U+3000. -/
def pyIsSpace (c : Char) : Bool :=
  decide ((0x09 ≤ c.toNat ∧ c.toNat ≤ 0x0d)
    ∨ (0x1c ≤ c.toNat ∧ c.toNat ≤ 0x20)
    ∨ c.toNat = 0x85 ∨ c.toNat = 0xa0 ∨ c.toNat = 0x1680
    ∨ (0x2000 ≤ c.toNat ∧ c.toNat ≤ 0x200a)
    ∨ c.toNat = 0x2028 ∨ c.toNat = 0x2029 ∨ c.toNat = 0x202f
    ∨ c.toNat = 0x205f ∨ c.toNat = 0x3000)

/-- Python `str.strip()`. -/
def pyStrip (s : List Char) : List Char :=
  ((s.dropWhile pyIsSpace).reverse.dropWhile pyIsSpace).reverse

def fbHost : List Char := "firebasestorage.googleapis.com".toList

def bucketLit : List Char := "africa-voice-mali.firebasestorage.app/".toList

/-- Python `needle in hay` substring containment. -/
def isSubstrOf (needle : List Char) : List Char → Bool
  | [] => needle.isEmpty
  | c :: cs => needle.isPrefixOf (c :: cs) || isSubstrOf needle cs

def hexVal (c : Char) : Option ℕ :=
  if '0' ≤ c ∧ c ≤ '9' then some (c.toNat - '0'.toNat)
  else if 'a' ≤ c ∧ c ≤ 'f' then some (c.toNat - 'a'.toNat + 10)
  else if 'A' ≤ c ∧ c ≤ 'F' then some (c.toNat - 'A'.toNat + 10)
  else none

/-- `urllib.parse.unquote` tokenization: each `%XX` hex escape becomes a byte;
a `%` not followed by two hex digits stays a literal `%` byte; other ASCII
characters become their ASCII byte; non-ASCII characters are passed through
unchanged (CPython splits the input on ASCII runs, so a non-ASCII character
never joins a byte run). -/
def percentTokens : List Char → List (ℕ ⊕ Char)
  | '%' :: a :: b :: rest =>
    match hexVal a, hexVal b with
    | some x, some y => Sum.inl (16 * x + y) :: percentTokens rest
    | _, _ => Sum.inl ('%'.toNat) :: percentTokens (a :: b :: rest)
  | c :: rest =>
    (if c.toNat ≤ 0x7f then Sum.inl c.toNat else Sum.inr c) :: percentTokens rest
  | [] => []
termination_by l => l.length
decreasing_by
  all_goals (simp only [List.length_cons]; omega)

def utf8Cont (b : ℕ) : Bool := decide (0x80 ≤ b ∧ b ≤ 0xbf)

/-- Valid second byte of a multi-byte UTF-8 sequence led by `b0`. -/
def utf8Second (b0 b : ℕ) : Bool :=
  if b0 = 0xe0 then decide (0xa0 ≤ b ∧ b ≤ 0xbf)
  else if b0 = 0xed then decide (0x80 ≤ b ∧ b ≤ 0x9f)
  else if b0 = 0xf0 then decide (0x90 ≤ b ∧ b ≤ 0xbf)
  else if b0 = 0xf4 then decide (0x80 ≤ b ∧ b ≤ 0x8f)
  else utf8Cont b

def replacementChar : Char := Char.ofNat 0xfffd

/-- UTF-8 decoding with `errors='replace'` (CPython's maximal-subpart rule:
one U+FFFD per maximal valid prefix of a truncated sequence, one per
otherwise-invalid byte). -/
def utf8DecodeReplace : List ℕ → List Char
  | [] => []
  | b :: rest =>
    if b < 0x80 then Char.ofNat b :: utf8DecodeReplace rest
    else if 0xc2 ≤ b ∧ b ≤ 0xdf then
      match rest with
      | [] => [replacementChar]
      | c :: r =>
        if utf8Cont c then
          Char.ofNat ((b - 0xc0) * 0x40 + (c - 0x80)) :: utf8DecodeReplace r
        else replacementChar :: utf8DecodeReplace (c :: r)
    else if 0xe0 ≤ b ∧ b ≤ 0xef then
      match rest with
      | [] => [replacementChar]
      | c :: r =>
        if utf8Second b c then
          match r with
          | [] => [replacementChar]
          | d :: r2 =>
            if utf8Cont d then
              Char.ofNat ((b - 0xe0) * 0x1000 + (c - 0x80) * 0x40 + (d - 0x80))
                :: utf8DecodeReplace r2
            else replacementChar :: utf8DecodeReplace (d :: r2)
        else replacementChar :: utf8DecodeReplace (c :: r)
    else if 0xf0 ≤ b ∧ b ≤ 0xf4 then
      match rest with
      | [] => [replacementChar]
      | c :: r =>
        if utf8Second b c then
          match r with
          | [] => [replacementChar]
          | d :: r2 =>
            if utf8Cont d then
              match r2 with
              | [] => [replacementChar]
              | e :: r3 =>
                if utf8Cont e then
                  Char.ofNat ((b - 0xf0) * 0x40000 + (c - 0x80) * 0x1000
                      + (d - 0x80) * 0x40 + (e - 0x80))
                    :: utf8DecodeReplace r3
                else replacementChar :: utf8DecodeReplace (e :: r3)
            else replacementChar :: utf8DecodeReplace (d :: r2)
        else replacementChar :: utf8DecodeReplace (c :: r)
    else replacementChar :: utf8DecodeReplace rest
termination_by l => l.length
decreasing_by
  all_goals (simp only [List.length_cons]; omega)

/-- The maximal leading run of bytes of a token list, and the remainder. -/
def splitByteRun : List (ℕ ⊕ Char) → List ℕ × List (ℕ ⊕ Char)
  | Sum.inl b :: rest =>
    let p := splitByteRun rest
    (b :: p.1, p.2)
  | ts => ([], ts)

theorem splitByteRun_length (ts : List (ℕ ⊕ Char)) :
    (splitByteRun ts).2.length ≤ ts.length := by
  induction ts with
  | nil => simp [splitByteRun]
  | cons t rest ih =>
    match t with
    | Sum.inl b => simpa [splitByteRun] using Nat.le_succ_of_le ih
    | Sum.inr c => simp [splitByteRun]

def decodeTokens : List (ℕ ⊕ Char) → List Char
  | [] => []
  | Sum.inr c :: rest => c :: decodeTokens rest
  | Sum.inl b :: rest =>
    utf8DecodeReplace (b :: (splitByteRun rest).1)
      ++ decodeTokens (splitByteRun rest).2
termination_by l => l.length
decreasing_by
  · simp only [List.length_cons]; omega
  · have h := splitByteRun_length rest
    simp only [List.length_cons]
    omega

/-- `urllib.parse.unquote(s)` with the defaults `encoding='utf-8'`,
`errors='replace'`: percent-escapes become bytes, maximal byte runs are
UTF-8-decoded with replacement, non-ASCII characters pass through. -/
def pyUnquote (s : List Char) : List Char :=
  decodeTokens (percentTokens s)

/-- Greedy group of `(.+)\x3f` at the current position: the index of the last
`?` (at index ≥ 1) within the maximal non-newline run. -/
def lastQMark (u : List Char) : Option ℕ :=
  let t := u.takeWhile (fun c => c != '\n')
  (List.range t.length).foldl
    (fun acc j => if 1 ≤ j ∧ t.getD j ' ' = '?' then some j else acc) none

/-- `re.search(r"/o/(.+)\x3f", s)`: leftmost position where `/o/` is followed
by a non-empty non-newline run ending before a `?`; greedy group. -/
def searchOGroup : List Char → Option (List Char)
  | [] => none
  | c :: cs =>
    if ("/o/".toList).isPrefixOf (c :: cs) then
      match lastQMark (cs.drop 2) with
      | some q => some ((cs.drop 2).take q)
      | none => searchOGroup cs
    else searchOGroup cs

/-- `re.search(r'africa-voice-mali\.firebasestorage\.app/(.+)', s)`: leftmost
occurrence of the bucket literal followed by at least one non-newline
character; greedy group = the rest of the non-newline run. -/
def searchBucketGroup : List Char → Option (List Char)
  | [] => none
  | c :: cs =>
    if bucketLit.isPrefixOf (c :: cs) then
      if (((c :: cs).drop bucketLit.length).takeWhile (fun ch => ch != '\n')).isEmpty
      then searchBucketGroup cs
      else some (((c :: cs).drop bucketLit.length).takeWhile (fun ch => ch != '\n'))
    else searchBucketGroup cs

def normalize_path (path : List Char) : List Char :=
  if isSubstrOf fbHost path then
    match searchOGroup path with
    | some g => pyStrip (pyUnquote g)
    | none =>
      match searchBucketGroup path with
      | some g => pyStrip g
      | none => pyStrip path
  else
    match searchBucketGroup path with
    | some g => pyStrip g
    | none => pyStrip path

def normalize_path_str (s : String) : String :=
  String.mk (normalize_path s.toList)

/-- Claim C9, counterexample: a bucket-qualified URI and its already-stripped
relative key are distinct inputs that normalize to the same canonical key, so
normalization is not injective. -/
theorem normalize_path_collision_cex :
    normalize_path_str "gs://africa-voice-mali.firebasestorage.app/foo.wav"
      = normalize_path_str "foo.wav"
    ∧ ("gs://africa-voice-mali.firebasestorage.app/foo.wav" : String) ≠ "foo.wav" := by
  constructor
  · decide
  · decide

/-- Claim C9, amended: normalization is a pure function and is the identity on
canonical relative keys (inputs containing neither the Firebase-host marker
nor the bucket-literal pattern and carrying no surrounding whitespace); hence
it is injective on canonical keys — but not on all inputs, since stripping a
known prefix collides with the already-canonical key. -/
theorem normalize_path_canonical (p q : List Char)
    (hp1 : isSubstrOf fbHost p = false)
    (hp2 : searchBucketGroup p = none)
    (hp3 : p.dropWhile pyIsSpace = p)
    (hp4 : p.reverse.dropWhile pyIsSpace = p.reverse) :
    normalize_path p = p
    ∧ (∀ (_ : isSubstrOf fbHost q = false) (_ : searchBucketGroup q = none)
        (_ : q.dropWhile pyIsSpace = q)
        (_ : q.reverse.dropWhile pyIsSpace = q.reverse),
        normalize_path p = normalize_path q → p = q) := by
  have hfix : ∀ r : List Char, isSubstrOf fbHost r = false →
      searchBucketGroup r = none → r.dropWhile pyIsSpace = r →
      r.reverse.dropWhile pyIsSpace = r.reverse → normalize_path r = r := by
    intro r h1 h2 h3 h4
    unfold normalize_path
    rw [if_neg (by rw [h1]; simp), h2]
    unfold pyStrip
    rw [h3, h4, List.reverse_reverse]
  refine ⟨hfix p hp1 hp2 hp3 hp4, ?_⟩
  intro hq1 hq2 hq3 hq4 heq
  rwa [hfix p hp1 hp2 hp3 hp4, hfix q hq1 hq2 hq3 hq4] at heq

/-- Claim C9, witness: the canonical-key theorem applied to the keys
`foo.wav` and `bar.wav`. -/
theorem normalize_path_canonical_witness :
    normalize_path "foo.wav".toList = "foo.wav".toList
    ∧ (normalize_path "foo.wav".toList = normalize_path "bar.wav".toList
        → "foo.wav".toList = "bar.wav".toList) :=
  ⟨(normalize_path_canonical "foo.wav".toList "bar.wav".toList (by decide)
      (by decide) (by decide) (by decide)).1,
   (normalize_path_canonical "foo.wav".toList "bar.wav".toList (by decide)
      (by decide) (by decide) (by decide)).2 (by decide) (by decide) (by decide)
      (by decide)⟩

/-! ## Signal Quality Estimator fallback ladder (`calculate_snr.py`,
`process_audio_vad`, lines 70-99, claim C7)

    speech_mask = _intervals_to_mask(speech_iv, n, sr, guard_ms / 1000.0)
    noise_mask = ~speech_mask
    _merge_short_islands(noise_mask, min_len)
    xs = x[speech_mask]; xn = x[noise_mask]
    if xs.size == 0: xs = x
    if xn.size == 0:
        frame = max(1, int(0.025 * sr)); hop = max(1, int(0.010 * sr))
        rms = [sqrt(mean((f - f.mean())**2) + EPS) for each 25ms/10ms frame f]
        if rms: p20 = np.percentile(rms, 20); xn = x[np.abs(x) <= p20]
    if xn.size == 0: xn = np.random.normal(scale=..., size=sr // 10)

The float `sqrt` is an abstract parameter `sq`; the Gaussian draw
`np.random.normal(scale=10**(noise_floor_db/20), size=sr//10)` is the
parameter `gauss`; the guard in samples and the minimum island length are the
parameters `g` and `min_len` as in `_intervals_to_mask` /
`_merge_short_islands`. -/

def EPS : ℚ := 1 / 10 ^ 12

/-- `np.mean` over ℚ (empty list gives 0 in this model). -/
def qmean (l : List ℚ) : ℚ := l.sum / l.length

/-- numpy boolean-mask selection `x[mask]`. -/
def maskSelect (x : List ℚ) (mask : List Bool) : List ℚ :=
  (x.zip mask).filterMap (fun p => if p.2 then some p.1 else none)

/-- The speech mask as a list over the sample indices of `x`. -/
def vad_speech_mask (x : List ℚ) (iv : List (ℕ × ℕ)) (g : ℕ) : List Bool :=
  (List.range x.length).map (intervals_to_mask iv x.length g)

/-- `~speech_mask` with short noise islands removed. -/
def vad_noise_mask (x : List ℚ) (iv : List (ℕ × ℕ)) (g min_len : ℕ) : List Bool :=
  merge_short_islands min_len ((vad_speech_mask x iv g).map (fun b => !b))

/-- `mean((f - f.mean())**2) + EPS` for the frame of length `frame` at `a`. -/
def frame_rms_sq (x : List ℚ) (a frame : ℕ) : ℚ :=
  let f := (x.drop a).take frame
  let mu := qmean f
  qmean (f.map (fun v => (v - mu) ^ 2)) + EPS

/-- `range(0, n - frame + 1, hop)`. -/
def frame_starts (n frame hop : ℕ) : List ℕ :=
  if n < frame then []
  else (List.range ((n - frame) / hop + 1)).map (fun k => k * hop)

/-- `np.percentile(l, 20)` with numpy's linear interpolation. -/
def percentile20 (l : List ℚ) : ℚ :=
  let s := l.insertionSort (· ≤ ·)
  let h : ℚ := ((l.length : ℚ) - 1) * (20 / 100)
  s.getD (⌊h⌋).toNat 0
    + (h - (⌊h⌋ : ℚ)) * (s.getD (⌈h⌉).toNat 0 - s.getD (⌊h⌋).toNat 0)

/-- Fallback rung (b) as the code implements it (`calculate_snr.py` lines
84-92): compute per-frame RMS over a 25 ms / 10 ms sliding analysis, take the
20th percentile `p20` of those frame energies, then select the individual
samples with `|x| <= p20` — wherever in the waveform they lie (empty when
there are no frames). -/
def percentile_noise (sq : ℚ → ℚ) (x : List ℚ) (sr : ℕ) : List ℚ :=
  let frame := max 1 (⌊(25 : ℚ) / 1000 * (sr : ℚ)⌋).toNat
  let hop := max 1 (⌊(10 : ℚ) / 1000 * (sr : ℚ)⌋).toNat
  let rms := (frame_starts x.length frame hop).map (fun a => sq (frame_rms_sq x a frame))
  if rms.isEmpty then []
  else x.filter (fun v => decide (|v| ≤ percentile20 rms))

/-- Modelled from the claim's words, not from the source: noise "estimated
from the lowest-20th-percentile-energy frames of a 25 ms window / 10 ms hop
sliding analysis" — the concatenated samples of the frames whose RMS energy
lies in the lowest 20th percentile.  Used only to compare against the
source's `percentile_noise`. -/
def spec_percentile_noise_frames (sq : ℚ → ℚ) (x : List ℚ) (sr : ℕ) : List ℚ :=
  let frame := max 1 (⌊(25 : ℚ) / 1000 * (sr : ℚ)⌋).toNat
  let hop := max 1 (⌊(10 : ℚ) / 1000 * (sr : ℚ)⌋).toNat
  let starts := frame_starts x.length frame hop
  let rms := starts.map (fun a => sq (frame_rms_sq x a frame))
  if rms.isEmpty then []
  else
    (starts.filter
        (fun a => decide (sq (frame_rms_sq x a frame) ≤ percentile20 rms))).flatMap
      (fun a => (x.drop a).take frame)

/-- The speech/noise sample selection of `process_audio_vad` with its
fallback ladder. -/
def process_audio_vad_select (sq : ℚ → ℚ) (x : List ℚ) (sr : ℕ)
    (iv : List (ℕ × ℕ)) (g min_len : ℕ) (gauss : List ℚ) : List ℚ × List ℚ :=
  let xs0 := maskSelect x (vad_speech_mask x iv g)
  let xn0 := maskSelect x (vad_noise_mask x iv g min_len)
  let xs := if xs0.isEmpty then x else xs0
  let xn1 := if xn0.isEmpty then percentile_noise sq x sr else xn0
  let xn2 := if xn1.isEmpty then gauss else xn1
  (xs, xn2)

/-- Claim C7, counterexample: the code's rung (b) is not the claim's
"lowest-20th-percentile-energy frames".  At `sr = 20` every sliding frame has
length 1, so all frame RMS energies are equal and every frame is a
lowest-20th-percentile-energy frame; on the waveform `[5, 0]` the claim's
frames-based estimate is therefore the whole waveform `[5, 0]`, while the
code thresholds individual samples by `|x| <= p20` and returns only `[0]`
(the sample `5` lies inside lowest-energy frames but exceeds the amplitude
threshold). -/
theorem percentile_noise_not_frames_cex :
    percentile_noise (fun q => q) [5, 0] 20 = [0]
    ∧ spec_percentile_noise_frames (fun q => q) [5, 0] 20 = [5, 0]
    ∧ ([0] : List ℚ) ≠ [5, 0] := by
  have hframe : max 1 ((⌊(25 : ℚ) / 1000 * ((20 : ℕ) : ℚ)⌋).toNat) = 1 := by
    norm_num
  have hhop : max 1 ((⌊(10 : ℚ) / 1000 * ((20 : ℕ) : ℚ)⌋).toNat) = 1 := by
    norm_num
  have hstarts : frame_starts 2 1 1 = [0, 1] := by
    norm_num [frame_starts, List.range_succ]
  have hr0 : frame_rms_sq [5, 0] 0 1 = EPS := by
    norm_num [frame_rms_sq, qmean]
  have hr1 : frame_rms_sq [5, 0] 1 1 = EPS := by
    norm_num [frame_rms_sq, qmean]
  have hp20 : percentile20 [EPS, EPS] = EPS := by
    norm_num [percentile20, List.insertionSort, List.orderedInsert, EPS]
    rw [show (⌈(1 : ℚ) / 5⌉) = 1 from by rw [Int.ceil_eq_iff]; norm_num]
    norm_num
  refine ⟨?_, ?_, by norm_num⟩
  · unfold percentile_noise
    simp only [List.length_cons, List.length_nil, hframe, hhop, hstarts,
      List.map_cons, List.map_nil, hr0, hr1, hp20, List.isEmpty_cons]
    norm_num [List.filter_cons, EPS]
  · unfold spec_percentile_noise_frames
    simp only [List.length_cons, List.length_nil, hframe, hhop, hstarts,
      List.map_cons, List.map_nil, hr0, hr1, hp20, List.isEmpty_cons]
    norm_num [List.filter_cons, List.flatMap_cons, List.flatMap_nil, hr0, hr1, hp20]

/-- Claim C7, amended: the fallback ladder of the Signal Quality Estimator is
total and applies its rungs in order with first match winning: (a) if the
masked speech sample set is empty, the entire waveform is treated as speech;
(b) if the masked noise sample set is empty, noise is estimated by amplitude
thresholding: the samples whose absolute value is at most the 20th percentile
of the per-frame RMS energies of a 25 ms / 10 ms sliding analysis (not the
lowest-energy frames themselves — see the counterexample); (c) if that is
still empty, the synthesized Gaussian noise burst is the noise reference —
and the returned noise set is never empty when the synthesized burst is
non-empty. -/
theorem process_audio_vad_select_ladder (sq : ℚ → ℚ) (x : List ℚ) (sr : ℕ)
    (iv : List (ℕ × ℕ)) (g min_len : ℕ) (gauss : List ℚ) :
    (maskSelect x (vad_speech_mask x iv g) ≠ [] →
      (process_audio_vad_select sq x sr iv g min_len gauss).1
        = maskSelect x (vad_speech_mask x iv g))
    ∧ (maskSelect x (vad_speech_mask x iv g) = [] →
      (process_audio_vad_select sq x sr iv g min_len gauss).1 = x)
    ∧ (maskSelect x (vad_noise_mask x iv g min_len) ≠ [] →
      (process_audio_vad_select sq x sr iv g min_len gauss).2
        = maskSelect x (vad_noise_mask x iv g min_len))
    ∧ (maskSelect x (vad_noise_mask x iv g min_len) = [] →
        percentile_noise sq x sr ≠ [] →
      (process_audio_vad_select sq x sr iv g min_len gauss).2
        = percentile_noise sq x sr)
    ∧ (maskSelect x (vad_noise_mask x iv g min_len) = [] →
        percentile_noise sq x sr = [] →
      (process_audio_vad_select sq x sr iv g min_len gauss).2 = gauss)
    ∧ (gauss ≠ [] →
      (process_audio_vad_select sq x sr iv g min_len gauss).2 ≠ []) := by
  unfold process_audio_vad_select
  simp only
  refine ⟨?_, ?_, ?_, ?_, ?_, ?_⟩
  · intro h
    simp [List.isEmpty_iff, h]
  · intro h
    simp [List.isEmpty_iff, h]
  · intro h
    simp [List.isEmpty_iff, h]
  · intro h hp
    simp [List.isEmpty_iff, h, hp]
  · intro h hp
    simp [List.isEmpty_iff, h, hp]
  · intro hg
    split_ifs with h1 h2 <;> simp_all [List.isEmpty_iff]

/-- Claim C7, witness: the ladder theorem applied to the waveform `[1, 2]`
with a VAD interval covering only sample 0: the speech set is the masked
selection and the noise set the suppressed complement selection. -/
theorem process_audio_vad_select_ladder_witness :
    (process_audio_vad_select (fun q => q) [1, 2] 100 [(0, 1)] 0 1 [5]).1
      = maskSelect [1, 2] (vad_speech_mask [1, 2] [(0, 1)] 0)
    ∧ (process_audio_vad_select (fun q => q) [1, 2] 100 [(0, 1)] 0 1 [5]).2
      = maskSelect [1, 2] (vad_noise_mask [1, 2] [(0, 1)] 0 1) := by
  have hmask : vad_noise_mask [1, 2] [(0, 1)] 0 1 = [false, true] := by
    have hsp : vad_speech_mask [1, 2] [(0, 1)] 0 = [true, false] := by decide
    rw [vad_noise_mask, hsp]
    simp [merge_short_islands]
  refine ⟨(process_audio_vad_select_ladder (fun q => q) [1, 2] 100 [(0, 1)] 0 1
      [5]).1 (by decide),
    (process_audio_vad_select_ladder (fun q => q) [1, 2] 100 [(0, 1)] 0 1
      [5]).2.2.1 ?_⟩
  rw [hmask]
  decide

end AfVoices
